import Mathlib

/-!
Verification of the abieos schema-driven serializer (`src/abieos.hpp`).

This file gives a shallow embedding of the parts of `abieos.hpp` that the
checked claims are about, and proves or refutes each claim against that
embedding.  Bytes are modelled as `Nat` values (well-formed buffers carry
entries `< 256`); machine-integer wraparound is made explicit with `% 2 ^ w`
where the C++ code can overflow.  C++ functions that `throw` are modelled as
`Option`/`Except` returns, with `none`/`.error` standing for a thrown
exception.
-/

namespace Abieos

/-- maximum event/stack recursion depth (`max_stack_size` in `abieos.hpp`). -/
def max_stack_size : Nat := 128

/-!
## Varint helpers

`push_varuint32` / `read_varuint32` from `abieos.hpp`.

The C++ `read_varuint32` accumulates into a `uint32_t` with
`result |= (b & 0x7f) << shift`; the right-hand side is truncated to 32 bits
on the assignment, which we model with an explicit `% 2 ^ 32`.
-/

/-- `push_varuint32` (abieos.hpp line 590): LEB128-encode `v`, 7 data bits per
byte, most significant bit of each byte set iff more bytes follow. -/
def push_varuint32 (v : Nat) : List Nat :=
  let b := v &&& 0x7f
  let val := v >>> 7
  if val > 0 then (b ||| 0x80) :: push_varuint32 val else [b]
termination_by v
decreasing_by
  simp only [Nat.shiftRight_eq_div_pow] at *
  omega

/-- loop body of `read_varuint32` (abieos.hpp line 600): `result` and `shift`
are the accumulator and current shift; each byte is read with
`read_bin<uint8_t>`, which throws (here: `none`) past the end of the input. -/
def read_varuint32_core : List Nat → Nat → Nat → Option (Nat × List Nat)
  | [], _, _ => none
  | b :: bs, result, shift =>
    let result' := result ||| (((b &&& 0x7f) <<< shift) % 2 ^ 32)
    if b &&& 0x80 ≠ 0 then read_varuint32_core bs result' (shift + 7)
    else some (result', bs)

/-- `read_varuint32` (abieos.hpp line 600): returns the decoded value and the
remaining input. -/
def read_varuint32 (bs : List Nat) : Option (Nat × List Nat) :=
  read_varuint32_core bs 0 0

/-!
## String readers

`read_string` (abieos.hpp line 89) and `bin_to_native(std::string&)`
(abieos.hpp line 1186).  Both read a `varuint32` length then that many raw
bytes; they differ in the bound check: `read_string` throws when
`size > end - pos` while `bin_to_native` throws when `size >= end - pos`.
-/

/-- `read_string` (abieos.hpp line 89): fails when the length prefix is
strictly greater than the number of remaining bytes. -/
def read_string (bs : List Nat) : Option (List Nat × List Nat) :=
  match read_varuint32 bs with
  | none => none
  | some (size, rest) =>
    if size > rest.length then none
    else some (rest.take size, rest.drop size)

/-- `bin_to_native(std::string&)` (abieos.hpp line 1186): throws
"invalid string size" when the length prefix is greater than **or equal to**
the number of remaining bytes. -/
def bin_to_native_string (bs : List Nat) : Option (List Nat × List Nat) :=
  match read_varuint32 bs with
  | none => none
  | some (size, rest) =>
    if size ≥ rest.length then none
    else some (rest.take size, rest.drop size)

/-!
### Lemmas about the varint coder
-/

theorem push_varuint32_ne_nil (n : Nat) : push_varuint32 n ≠ [] := by
  rw [push_varuint32]
  split <;> simp

theorem push_varuint32_small {n : Nat} (h : n < 128) : push_varuint32 n = [n] := by
  rw [push_varuint32]
  have h7 : n >>> 7 = 0 := by
    simp only [Nat.shiftRight_eq_div_pow]
    omega
  have hand : n &&& 0x7f = n := by
    have : n &&& 2 ^ 7 - 1 = n % 2 ^ 7 := Nat.and_pow_two_sub_one_eq_mod n 7
    simpa [Nat.mod_eq_of_lt h] using this
  simp [h7, hand]

set_option maxRecDepth 4096 in
theorem byte_and_127 : ∀ b < 256, b &&& 127 = b % 128 := by decide

set_option maxRecDepth 4096 in
theorem byte_and_128 : ∀ b < 256, (b &&& 128 = 0 ↔ b < 128) := by decide

theorem push_varuint32_large {n : Nat} (h : 128 ≤ n) :
    push_varuint32 n = (128 + n % 128) :: push_varuint32 (n >>> 7) := by
  rw [push_varuint32]
  have h7 : n >>> 7 > 0 := by
    simp only [Nat.shiftRight_eq_div_pow]
    omega
  have hand : n &&& 0x7f = n % 128 := by
    simpa using Nat.and_pow_two_sub_one_eq_mod n 7
  have hor : n % 128 ||| 0x80 = 128 + n % 128 := by
    have hlt : n % 128 < 2 ^ 7 := Nat.mod_lt _ (by norm_num)
    have := Nat.mul_add_lt_is_or hlt 1
    simpa [Nat.or_comm] using this.symm
  simp [h7, hand, hor]

theorem byte_high_bit_set {r : Nat} (h : r < 128) : (128 + r) &&& 0x80 ≠ 0 := by
  intro h0
  have := (byte_and_128 (128 + r) (by omega)).mp h0
  omega

theorem byte_high_bit_clear {n : Nat} (h : n < 128) : n &&& 0x80 = 0 :=
  (byte_and_128 n (by omega)).mpr h

/-- core round-trip: decoding the encoding of `n` on top of accumulator `acc`
at shift position `shift` yields `acc + n * 2 ^ shift`. -/
theorem read_core_push (n : Nat) : ∀ (shift acc : Nat) (rest : List Nat),
    acc < 2 ^ shift → acc + n * 2 ^ shift < 2 ^ 32 →
    read_varuint32_core (push_varuint32 n ++ rest) acc shift
      = some (acc + n * 2 ^ shift, rest) := by
  induction n using Nat.strong_induction_on with
  | _ n ih =>
    intro shift acc rest hacc hlt
    by_cases hbig : 128 ≤ n
    · rw [push_varuint32_large hbig]
      have hr : n % 128 < 128 := Nat.mod_lt _ (by norm_num)
      have hcont := byte_high_bit_set hr
      have hand : (128 + n % 128) &&& 0x7f = n % 128 := by
        have h1 := byte_and_127 (128 + n % 128) (by omega)
        omega
      have hmodeq : (n % 128) <<< shift % 2 ^ 32 = n % 128 * 2 ^ shift := by
        rw [Nat.shiftLeft_eq]
        have hle : n % 128 * 2 ^ shift ≤ n * 2 ^ shift :=
          Nat.mul_le_mul_right _ (Nat.mod_le _ _)
        exact Nat.mod_eq_of_lt (by omega)
      have hres : acc ||| ((128 + n % 128) &&& 0x7f) <<< shift % 2 ^ 32
          = n % 128 * 2 ^ shift + acc := by
        rw [hand, hmodeq]
        have := Nat.mul_add_lt_is_or hacc (n % 128)
        rw [Nat.mul_comm (2 ^ shift) (n % 128)] at this
        rw [Nat.or_comm]
        exact this.symm
      have hlt7 : n >>> 7 < n := by
        simp only [Nat.shiftRight_eq_div_pow]
        exact Nat.div_lt_self (by omega) (by norm_num)
      have hdiv : n >>> 7 = n / 128 := by
        simp [Nat.shiftRight_eq_div_pow]
      have hsplit : n = 128 * (n / 128) + n % 128 := (Nat.div_add_mod n 128).symm
      have haccval : n % 128 * 2 ^ shift + acc + n >>> 7 * 2 ^ (shift + 7)
          = acc + n * 2 ^ shift := by
        rw [hdiv, pow_add]
        calc n % 128 * 2 ^ shift + acc + n / 128 * (2 ^ shift * 2 ^ 7)
            = acc + (128 * (n / 128) + n % 128) * 2 ^ shift := by ring
          _ = acc + n * 2 ^ shift := by rw [← hsplit]
      have happ := ih (n >>> 7) hlt7 (shift + 7) (n % 128 * 2 ^ shift + acc) rest
        (by
          have : n % 128 * 2 ^ shift + acc < 128 * 2 ^ shift := by
            have := Nat.mul_le_mul_right (2 ^ shift) (by omega : n % 128 ≤ 127)
            omega
          calc n % 128 * 2 ^ shift + acc < 128 * 2 ^ shift := this
            _ = 2 ^ (shift + 7) := by rw [pow_add]; ring)
        (by rw [haccval]; exact hlt)
      calc read_varuint32_core
              (((128 + n % 128) :: push_varuint32 (n >>> 7)) ++ rest) acc shift
          = read_varuint32_core (push_varuint32 (n >>> 7) ++ rest)
              (acc ||| ((128 + n % 128) &&& 0x7f) <<< shift % 2 ^ 32) (shift + 7) := by
            simp only [List.cons_append, read_varuint32_core, hcont, ne_eq,
              not_false_eq_true, if_true, List.append_eq]
        _ = read_varuint32_core (push_varuint32 (n >>> 7) ++ rest)
              (n % 128 * 2 ^ shift + acc) (shift + 7) := by rw [hres]
        _ = some (n % 128 * 2 ^ shift + acc + n >>> 7 * 2 ^ (shift + 7), rest) := happ
        _ = some (acc + n * 2 ^ shift, rest) := by rw [haccval]
    · push_neg at hbig
      rw [push_varuint32_small hbig]
      have hstop := byte_high_bit_clear hbig
      have hand : n &&& 0x7f = n := by
        have h1 := byte_and_127 n (by omega)
        omega
      have hmodeq : n <<< shift % 2 ^ 32 = n * 2 ^ shift := by
        rw [Nat.shiftLeft_eq]
        exact Nat.mod_eq_of_lt (by omega)
      have hres : acc ||| (n &&& 0x7f) <<< shift % 2 ^ 32 = acc + n * 2 ^ shift := by
        rw [hand, hmodeq]
        have := Nat.mul_add_lt_is_or hacc n
        rw [Nat.mul_comm (2 ^ shift) n] at this
        rw [Nat.or_comm, ← this]
        ring
      calc read_varuint32_core ([n] ++ rest) acc shift
          = some (acc ||| (n &&& 0x7f) <<< shift % 2 ^ 32, rest) := by
            simp only [List.cons_append, List.nil_append, read_varuint32_core,
              hstop, ne_eq, not_true_eq_false, if_false]
            simp
        _ = some (acc + n * 2 ^ shift, rest) := by rw [hres]

theorem push_varuint32_getLast {n : Nat} (h : n ≠ 0) :
    (push_varuint32 n).getLast? ≠ some 0 := by
  induction n using Nat.strong_induction_on with
  | _ n ih =>
    by_cases hbig : 128 ≤ n
    · rw [push_varuint32_large hbig]
      have h7pos : n >>> 7 ≠ 0 := by
        simp only [Nat.shiftRight_eq_div_pow]
        omega
      have h7lt : n >>> 7 < n := by
        simp only [Nat.shiftRight_eq_div_pow]
        exact Nat.div_lt_self (by omega) (by norm_num)
      obtain ⟨c, l, hcl⟩ : ∃ c l, push_varuint32 (n >>> 7) = c :: l := by
        cases hx : push_varuint32 (n >>> 7) with
        | nil => exact absurd hx (push_varuint32_ne_nil _)
        | cons c l => exact ⟨c, l, rfl⟩
      rw [hcl, List.getLast?_cons_cons, ← hcl]
      exact ih (n >>> 7) h7lt h7pos
    · push_neg at hbig
      rw [push_varuint32_small hbig]
      simp [h]

/-- C3: varuint32 round-trip and canonicality.  For every `n < 2 ^ 32`,
decoding the encoder's output returns `n` and consumes exactly the encoded
bytes; the encoding of `0` is the single byte `0`, and for `n ≠ 0` the final
byte (the one without a continuation bit) is nonzero, so the output carries no
redundant trailing zero-continuation bytes: it is the unique minimal-length
LEB128 form. -/
theorem varuint32_roundtrip_canonical :
    (∀ n, n < 2 ^ 32 → ∀ rest, read_varuint32 (push_varuint32 n ++ rest)
        = some (n, rest)) ∧
    push_varuint32 0 = [0] ∧
    (∀ n, n ≠ 0 → (push_varuint32 n).getLast? ≠ some 0) := by
  refine ⟨?_, ?_, ?_⟩
  · intro n hn rest
    have := read_core_push n 0 0 rest (by norm_num) (by simpa using hn)
    simpa [read_varuint32] using this
  · exact push_varuint32_small (by norm_num)
  · intro n hn
    exact push_varuint32_getLast hn

/-- witness for C3 at `n = 0xdeadbeef` (spec scenario S1: bytes
`ef fd b6 f5 0d`). -/
theorem varuint32_roundtrip_canonical_witness :
    read_varuint32 (push_varuint32 0xdeadbeef ++ []) = some (0xdeadbeef, []) ∧
    (push_varuint32 7).getLast? ≠ some 0 :=
  ⟨varuint32_roundtrip_canonical.1 0xdeadbeef (by norm_num) [],
   varuint32_roundtrip_canonical.2.2 7 (by norm_num)⟩

/-- C4 counterexample: the claim says any encoding spanning more than 5 bytes
is rejected, but `read_varuint32` imposes no byte-count limit: the 6-byte
input `80 80 80 80 80 00` decodes successfully (to `0`). -/
theorem varuint32_six_bytes_accepted :
    read_varuint32 [128, 128, 128, 128, 128, 0] = some (0, []) := by
  decide

theorem read_core_all_continuation :
    ∀ (bs : List Nat), (∀ b ∈ bs, b &&& 128 ≠ 0) →
      ∀ acc shift, read_varuint32_core bs acc shift = none := by
  intro bs
  induction bs with
  | nil => intro _ _ _; rfl
  | cons b rest ihr =>
    intro hall acc shift
    have hb : b &&& 128 ≠ 0 := hall b (by simp)
    simp only [read_varuint32_core, hb, ne_eq, not_false_eq_true, if_true]
    exact ihr (fun x hx => hall x (by simp [hx])) _ _

theorem read_core_zero_continuations :
    ∀ (k : Nat) (acc shift : Nat),
      read_varuint32_core (List.replicate k 128 ++ [0]) acc shift
        = some (acc, []) := by
  intro k
  induction k with
  | zero =>
    intro acc shift
    simp [read_varuint32_core]
  | succ k ihk =>
    intro acc shift
    have hcont : (128 : Nat) &&& 128 ≠ 0 := by decide
    have hzero : (128 : Nat) &&& 0x7f = 0 := by decide
    simp only [List.replicate_succ, List.cons_append, read_varuint32_core,
      hcont, ne_eq, not_false_eq_true, if_true, hzero]
    simpa using ihk acc (shift + 7)

/-- C4 amended: `read_varuint32` enforces no 5-byte cap — it consumes
arbitrarily many continuation bytes (a `k`-byte run of `0x80` followed by a
terminating `0x00` decodes to `0` for every `k`); what does fail is a read
that runs past the end of the input: if every byte has the continuation bit
set, the decoder exhausts the buffer and fails. -/
theorem varuint32_no_length_cap :
    (∀ k, read_varuint32 (List.replicate k 128 ++ [0]) = some (0, [])) ∧
    (∀ bs : List Nat, (∀ b ∈ bs, b &&& 128 ≠ 0) → read_varuint32 bs = none) := by
  constructor
  · intro k
    exact read_core_zero_continuations k 0 0
  · intro bs hall
    exact read_core_all_continuation bs hall 0 0

/-- witness for C4 amended at `k = 5` and at the all-continuation buffer
`[0x80]`. -/
theorem varuint32_no_length_cap_witness :
    read_varuint32 (List.replicate 5 128 ++ [0]) = some (0, []) ∧
    read_varuint32 [128] = none :=
  ⟨varuint32_no_length_cap.1 5,
   varuint32_no_length_cap.2 [128] (by decide)⟩

/-- C10: when the varuint32 length prefix parses to `size` with `rest`
remaining, the native-path string decoder fails exactly when
`rest.length ≤ size` (it rejects `size` *equal* to the remaining bytes, via
its `size >= end - pos` check), while the ABI-path `read_string` fails
exactly when `rest.length < size` (strictly greater lengths only). -/
theorem string_size_check (bs : List Nat) (size : Nat) (rest : List Nat)
    (h : read_varuint32 bs = some (size, rest)) :
    (bin_to_native_string bs = none ↔ rest.length ≤ size) ∧
    (read_string bs = none ↔ rest.length < size) := by
  constructor
  · unfold bin_to_native_string
    rw [h]
    by_cases hge : size ≥ rest.length <;> simp [hge]
  · unfold read_string
    rw [h]
    by_cases hgt : size > rest.length <;> simp [hgt]

/-- witness for C10 at the buffer `[3, 97, 98, 99]`: the payload is exactly
the remaining 3 bytes, so `bin_to_native_string` rejects it while
`read_string` accepts it. -/
theorem string_size_check_witness :
    (bin_to_native_string [3, 97, 98, 99] = none ↔
      ([97, 98, 99] : List Nat).length ≤ 3) ∧
    (read_string [3, 97, 98, 99] = none ↔
      ([97, 98, 99] : List Nat).length < 3) :=
  string_size_check [3, 97, 98, 99] 3 [97, 98, 99] (by decide)

/-!
## Names

`char_to_symbol`, `string_to_name` (abieos.hpp line 513) and `name_to_string`
(abieos.hpp line 523).  Strings are modelled as `List Char`; C characters are
compared by code point (`Char.toNat`).
-/

/-- `char_to_symbol` (abieos.hpp line 505): `'a'..'z' ↦ 6..31`,
`'1'..'5' ↦ 1..5`, everything else (including `'.'`) `↦ 0`. -/
def char_to_symbol (c : Char) : Nat :=
  if 'a'.toNat ≤ c.toNat ∧ c.toNat ≤ 'z'.toNat then c.toNat - 'a'.toNat + 6
  else if '1'.toNat ≤ c.toNat ∧ c.toNat ≤ '5'.toNat then c.toNat - '1'.toNat + 1
  else 0

/-- loop of `string_to_name` (abieos.hpp line 513): characters at positions
`0..11` contribute 5 bits each at `64 - 5 * (i + 1)`; when the loop reaches
`i = 12` the 13th character contributes only its low 4 bits (`& 0x0F`); any
characters beyond the 13th are ignored.  An exhausted string (the C string's
NUL terminator) contributes nothing. -/
def string_to_name_loop : List Char → Nat → Nat
  | [], _ => 0
  | c :: s, i =>
    if i < 12 then
      ((char_to_symbol c &&& 0x1f) <<< (64 - 5 * (i + 1))) ||| string_to_name_loop s (i + 1)
    else
      char_to_symbol c &&& 0x0f

/-- `string_to_name` (abieos.hpp line 513). -/
def string_to_name (s : List Char) : Nat := string_to_name_loop s 0

/-- the `charmap` table of `name_to_string` (abieos.hpp line 524):
`".12345abcdefghijklmnopqrstuvwxyz"`. -/
def charmap : List Char :=
  ['.', '1', '2', '3', '4', '5', 'a', 'b', 'c', 'd', 'e', 'f', 'g', 'h', 'i',
   'j', 'k', 'l', 'm', 'n', 'o', 'p', 'q', 'r', 's', 't', 'u', 'v', 'w', 'x',
   'y', 'z']

/-- iterations `i = 12 .. 1` of the `name_to_string` loop: each step peels
5 bits off the bottom of `tmp` and writes the decoded character one position
to the left of the previous one. -/
def name_to_string_aux : Nat → Nat → List Char
  | _, 0 => []
  | tmp, k + 1 => name_to_string_aux (tmp >>> 5) k ++ [charmap.getD (tmp &&& 0x1f) '.']

/-- the 13 characters produced by the `name_to_string` loop (abieos.hpp
line 528): iteration `i = 0` uses mask `0x0f` and shift 4 for the last
position, the remaining iterations use mask `0x1f` and shift 5. -/
def name_to_string_chars (n : Nat) : List Char :=
  name_to_string_aux (n >>> 4) 12 ++ [charmap.getD (n &&& 0x0f) '.']

/-- the `find_last_not_of('.')` / `substr` step of `name_to_string`
(abieos.hpp line 534): trailing dots are removed unless the string consists
entirely of dots, in which case it is returned unchanged. -/
def trim_trailing_dots (l : List Char) : List Char :=
  let r := (l.reverse.dropWhile (fun c => c = '.')).reverse
  if r.isEmpty then l else r

/-- `name_to_string` (abieos.hpp line 523). -/
def name_to_string (n : Nat) : List Char :=
  trim_trailing_dots (name_to_string_chars n)

/-!
### Lemmas about names
-/

theorem char_to_symbol_lt (c : Char) : char_to_symbol c < 32 := by
  unfold char_to_symbol
  have ha : 'a'.toNat = 97 := rfl
  have hz : 'z'.toNat = 122 := rfl
  have h1 : '1'.toNat = 49 := rfl
  have h5 : '5'.toNat = 53 := rfl
  rw [ha, hz, h1, h5]
  split_ifs with hb hc
  · omega
  · omega
  · omega

set_option maxRecDepth 4096 in
theorem charmap_getD_symbol :
    ∀ c ∈ charmap, charmap.getD (char_to_symbol c) '.' = c := by decide

/-- packing a digit list MSB-first in base 32, as the name's high 60 bits do. -/
def fold32 (ds : List Nat) : Nat := ds.foldl (fun acc d => acc * 32 + d) 0

/-- a digit list padded with zero symbols (the C string's implicit NUL
padding) to exactly `k` digits. -/
def padTo (k : Nat) (xs : List Nat) : List Nat :=
  xs.take k ++ List.replicate (k - xs.length) 0

/-- the 4-bit 13th symbol taken from position `k` of the string, 0 if the
string is shorter. -/
def sym13after : Nat → List Char → Nat
  | _, [] => 0
  | 0, c :: _ => char_to_symbol c &&& 0x0f
  | k + 1, _ :: s => sym13after k s

theorem fold32_shift (ds : List Nat) : ∀ (a : Nat),
    ds.foldl (fun acc d => acc * 32 + d) a = a * 32 ^ ds.length + fold32 ds := by
  induction ds with
  | nil => intro a; simp [fold32]
  | cons d ds ih =>
    intro a
    have h0 : (0 : ℕ) * 32 + d = d := by omega
    simp only [fold32, List.foldl_cons, List.length_cons, h0]
    rw [ih (a * 32 + d), ih d]
    ring

theorem fold32_cons (d : Nat) (ds : List Nat) :
    fold32 (d :: ds) = d * 32 ^ ds.length + fold32 ds := by
  have := fold32_shift ds d
  simpa [fold32] using this

theorem fold32_lt (ds : List Nat) (h : ∀ d ∈ ds, d < 32) :
    fold32 ds < 32 ^ ds.length := by
  induction ds with
  | nil => simp [fold32]
  | cons d ds ih =>
    have hd : d < 32 := h d (by simp)
    have hrest := ih (fun x hx => h x (by simp [hx]))
    rw [fold32_cons]
    have : d * 32 ^ ds.length + fold32 ds < (d + 1) * 32 ^ ds.length := by
      have := hrest
      nlinarith [pow_pos (by norm_num : (0:ℕ) < 32) ds.length]
    calc d * 32 ^ ds.length + fold32 ds < (d + 1) * 32 ^ ds.length := this
      _ ≤ 32 * 32 ^ ds.length := by
          have : d + 1 ≤ 32 := by omega
          exact Nat.mul_le_mul_right _ this
      _ = 32 ^ (d :: ds).length := by rw [List.length_cons, pow_succ]; ring

theorem fold32_append_single (ds : List Nat) (d : Nat) :
    fold32 (ds ++ [d]) = 32 * fold32 ds + d := by
  unfold fold32
  rw [List.foldl_append]
  simp [Nat.mul_comm]

theorem fold32_replicate_zero (m : Nat) : fold32 (List.replicate m 0) = 0 := by
  induction m with
  | zero => rfl
  | succ m ih =>
    have : List.replicate (m + 1) 0 = List.replicate m 0 ++ [0] :=
      List.replicate_succ' m 0
    rw [this, fold32_append_single, ih]

theorem padTo_length (k : Nat) (xs : List Nat) : (padTo k xs).length = k := by
  unfold padTo
  simp [List.length_take, List.length_replicate]
  omega

theorem padTo_cons (k : Nat) (x : Nat) (xs : List Nat) :
    padTo (k + 1) (x :: xs) = x :: padTo k xs := by
  unfold padTo
  simp only [List.take_succ_cons, List.cons_append, List.length_cons]
  have h1 : k + 1 - (xs.length + 1) = k - xs.length := by omega
  rw [h1]

theorem padTo_mem_lt (k : Nat) (xs : List Nat) (h : ∀ x ∈ xs, x < 32) :
    ∀ d ∈ padTo k xs, d < 32 := by
  intro d hd
  unfold padTo at hd
  rcases List.mem_append.mp hd with h1 | h2
  · exact h d (List.mem_of_mem_take h1)
  · have := List.eq_of_mem_replicate h2
    omega

theorem name_to_string_aux_fold32 :
    ∀ (ds : List Nat), (∀ d ∈ ds, d < 32) →
      name_to_string_aux (fold32 ds) ds.length
        = ds.map (fun d => charmap.getD d '.') := by
  intro ds
  induction ds using List.reverseRecOn with
  | nil => intro _; rfl
  | append_singleton xs x ih =>
    intro hall
    have hx : x < 32 := hall x (by simp)
    have hxs : ∀ d ∈ xs, d < 32 := fun d hd => hall d (by simp [hd])
    have hlen : (xs ++ [x]).length = xs.length + 1 := by simp
    have hval : fold32 (xs ++ [x]) = 32 * fold32 xs + x := fold32_append_single xs x
    have hmod : fold32 (xs ++ [x]) &&& 0x1f = x := by
      have h31 : fold32 (xs ++ [x]) &&& 0x1f = fold32 (xs ++ [x]) % 32 := by
        simpa using Nat.and_pow_two_sub_one_eq_mod (fold32 (xs ++ [x])) 5
      rw [h31, hval]
      omega
    have hdiv : fold32 (xs ++ [x]) >>> 5 = fold32 xs := by
      rw [Nat.shiftRight_eq_div_pow, hval]
      omega
    rw [hlen, name_to_string_aux, hmod, hdiv, ih hxs]
    simp

theorem sym13after_lt (k : Nat) (s : List Char) : sym13after k s < 16 := by
  induction k generalizing s with
  | zero =>
    cases s with
    | nil => norm_num [sym13after]
    | cons c s =>
      show char_to_symbol c &&& 0x0f < 16
      have h1 : char_to_symbol c &&& 0x0f = char_to_symbol c % 16 := by
        simpa using Nat.and_pow_two_sub_one_eq_mod (char_to_symbol c) 4
      rw [h1]
      omega
  | succ k ih =>
    cases s with
    | nil => norm_num [sym13after]
    | cons c s =>
      show sym13after k s < 16
      exact ih s

theorem string_to_name_loop_eq_pack :
    ∀ (s : List Char) (i : Nat), i ≤ 12 →
      string_to_name_loop s i
        = 16 * fold32 (padTo (12 - i) (s.map char_to_symbol))
            + sym13after (12 - i) s := by
  intro s
  induction s with
  | nil =>
    intro i hi
    simp [string_to_name_loop, sym13after, padTo, fold32_replicate_zero]
  | cons c s ih =>
    intro i hi
    by_cases hlt : i < 12
    · have hrec := ih (i + 1) (by omega)
      have hsym : char_to_symbol c &&& 0x1f = char_to_symbol c := by
        have := Nat.and_pow_two_sub_one_of_lt_two_pow
          (x := char_to_symbol c) (n := 5) (char_to_symbol_lt c)
        simpa using this
      have hshift : 64 - 5 * (i + 1) = 59 - 5 * i := by omega
      have hFlt : fold32 (padTo (11 - i) (s.map char_to_symbol)) < 32 ^ (11 - i) := by
        have := fold32_lt (padTo (11 - i) (s.map char_to_symbol))
          (padTo_mem_lt _ _ (fun x hx => by
            obtain ⟨c', _, hc'⟩ := List.mem_map.mp hx
            rw [← hc']
            exact char_to_symbol_lt c'))
        rwa [padTo_length] at this
      have htlt : sym13after (11 - i) s < 16 := sym13after_lt (11 - i) s
      have hpow : 16 * 32 ^ (11 - i) = 2 ^ (59 - 5 * i) := by
        have h1 : (32 : ℕ) ^ (11 - i) = 2 ^ (5 * (11 - i)) := by
          rw [show (32 : ℕ) = 2 ^ 5 from rfl, ← pow_mul]
        rw [h1, show (16 : ℕ) = 2 ^ 4 from rfl, ← pow_add]
        congr 1
        omega
      have hRlt : 16 * fold32 (padTo (11 - i) (s.map char_to_symbol))
          + sym13after (11 - i) s < 2 ^ (59 - 5 * i) := by
        rw [← hpow]
        omega
      have hor : (char_to_symbol c) <<< (59 - 5 * i)
            ||| (16 * fold32 (padTo (11 - i) (s.map char_to_symbol))
                  + sym13after (11 - i) s)
          = char_to_symbol c * 2 ^ (59 - 5 * i)
            + (16 * fold32 (padTo (11 - i) (s.map char_to_symbol))
                + sym13after (11 - i) s) := by
        rw [Nat.shiftLeft_eq]
        have := Nat.mul_add_lt_is_or hRlt (char_to_symbol c)
        rw [Nat.mul_comm (2 ^ (59 - 5 * i)) (char_to_symbol c)] at this
        exact this.symm
      have hpad : padTo (12 - i) ((c :: s).map char_to_symbol)
          = char_to_symbol c :: padTo (11 - i) (s.map char_to_symbol) := by
        rw [List.map_cons, show 12 - i = (11 - i) + 1 from by omega, padTo_cons]
      have hsym13 : sym13after (12 - i) (c :: s) = sym13after (11 - i) s := by
        rw [show 12 - i = (11 - i) + 1 from by omega]
        simp [sym13after]
      have hfold : fold32 (char_to_symbol c :: padTo (11 - i) (s.map char_to_symbol))
          = char_to_symbol c * 32 ^ (11 - i)
            + fold32 (padTo (11 - i) (s.map char_to_symbol)) := by
        rw [fold32_cons, padTo_length]
      have heq : string_to_name_loop (c :: s) i
          = ((char_to_symbol c &&& 0x1f) <<< (64 - 5 * (i + 1)))
              ||| string_to_name_loop s (i + 1) := by
        rw [string_to_name_loop, if_pos hlt]
      have h16pow : 16 * (char_to_symbol c * 32 ^ (11 - i))
          = char_to_symbol c * 2 ^ (59 - 5 * i) := by
        rw [← hpow]
        ring
      rw [heq, hsym, hshift, hrec, show 12 - (i + 1) = 11 - i from by omega, hor,
        hpad, hsym13, hfold, Nat.mul_add, h16pow]
      ring
    · have hi12 : i = 12 := by omega
      subst hi12
      simp [string_to_name_loop, sym13after, padTo, fold32]

/-- for an all-dot string (or any string of symbol-0 characters) the packed
name is 0. -/
theorem string_to_name_loop_dots :
    ∀ (s : List Char) (i : Nat), (∀ c ∈ s, c = '.') →
      string_to_name_loop s i = 0 := by
  intro s
  induction s with
  | nil => intro i _; rfl
  | cons c s ih =>
    intro i hall
    have hc : c = '.' := hall c (by simp)
    have hsym : char_to_symbol c = 0 := by rw [hc]; rfl
    unfold string_to_name_loop
    by_cases hlt : i < 12
    · rw [if_pos hlt, hsym, ih (i + 1) (fun x hx => hall x (by simp [hx]))]
      simp
    · rw [if_neg hlt, hsym]
      rfl

theorem sym13after_getD (k : Nat) (s : List Char) :
    sym13after k s = char_to_symbol (s.getD k '.') &&& 0x0f := by
  induction k generalizing s with
  | zero =>
    cases s with
    | nil => decide
    | cons c s => rfl
  | succ k ih =>
    cases s with
    | nil =>
      show (0 : Nat) = char_to_symbol (([] : List Char).getD (k + 1) '.') &&& 0x0f
      rw [List.getD_nil]
      decide
    | cons c s =>
      show sym13after k s = _
      rw [ih s]
      rfl

theorem drop_of_length_eq_succ :
    ∀ (k : Nat) (s : List Char), s.length = k + 1 → s.drop k = [s.getD k '.'] := by
  intro k
  induction k with
  | zero =>
    intro s hs
    cases s with
    | nil => simp at hs
    | cons c s =>
      have : s = [] := by
        cases s with
        | nil => rfl
        | cons _ _ => simp at hs
      simp [this]
  | succ k ih =>
    intro s hs
    cases s with
    | nil => simp at hs
    | cons c s =>
      have := ih s (by simpa using hs)
      simpa using this

theorem map_getD_symbol_of_valid :
    ∀ (s : List Char), (∀ c ∈ s, c ∈ charmap) →
      s.map (fun c => charmap.getD (char_to_symbol c) '.') = s := by
  intro s
  induction s with
  | nil => intro _; rfl
  | cons c s ih =>
    intro hval
    have hc := charmap_getD_symbol c (hval c (by simp))
    simp only [List.map_cons, hc]
    rw [ih (fun x hx => hval x (by simp [hx]))]

/-- the 13 raw characters produced for a valid name string: the string itself
padded to 13 characters with dots. -/
theorem name_to_string_chars_of_valid (s : List Char)
    (hval : ∀ c ∈ s, c ∈ charmap) (hlen : s.length ≤ 13)
    (h13 : char_to_symbol (s.getD 12 '.') < 16) :
    name_to_string_chars (string_to_name s)
      = s ++ List.replicate (13 - s.length) '.' := by
  have hpack := string_to_name_loop_eq_pack s 0 (by omega)
  simp only [Nat.sub_zero] at hpack
  set M := fold32 (padTo 12 (s.map char_to_symbol)) with hM
  set t := sym13after 12 s with ht
  have htlt : t < 16 := by
    rw [ht, sym13after_getD]
    have : char_to_symbol (s.getD 12 '.') &&& 0x0f
        = char_to_symbol (s.getD 12 '.') % 16 := by
      simpa using Nat.and_pow_two_sub_one_eq_mod (char_to_symbol (s.getD 12 '.')) 4
    rw [this]
    omega
  have hn : string_to_name s = 16 * M + t := hpack
  have hlow : string_to_name s &&& 0x0f = t := by
    have h1 : string_to_name s &&& 0x0f = string_to_name s % 16 := by
      simpa using Nat.and_pow_two_sub_one_eq_mod (string_to_name s) 4
    rw [h1, hn]
    omega
  have hhigh : string_to_name s >>> 4 = M := by
    rw [Nat.shiftRight_eq_div_pow, hn]
    omega
  have hMdigits : ∀ d ∈ padTo 12 (s.map char_to_symbol), d < 32 :=
    padTo_mem_lt _ _ (fun x hx => by
      obtain ⟨c', _, hc'⟩ := List.mem_map.mp hx
      rw [← hc']
      exact char_to_symbol_lt c')
  have haux : name_to_string_aux M 12
      = (padTo 12 (s.map char_to_symbol)).map (fun d => charmap.getD d '.') := by
    have := name_to_string_aux_fold32 (padTo 12 (s.map char_to_symbol)) hMdigits
    rwa [padTo_length] at this
  have htake12 : (s.take 12).map (fun c => charmap.getD (char_to_symbol c) '.')
      = s.take 12 :=
    map_getD_symbol_of_valid (s.take 12)
      (fun c hc => hval c (List.mem_of_mem_take hc))
  have hmap : (padTo 12 (s.map char_to_symbol)).map (fun d => charmap.getD d '.')
      = s.take 12 ++ List.replicate (12 - s.length) '.' := by
    unfold padTo
    rw [List.map_append, List.map_replicate, ← List.map_take, List.map_map]
    rw [show ((fun d => charmap.getD d '.') ∘ char_to_symbol)
        = (fun c => charmap.getD (char_to_symbol c) '.') from rfl]
    rw [htake12, List.length_map]
    rfl
  unfold name_to_string_chars
  rw [hlow, hhigh, haux, hmap]
  by_cases hshort : s.length ≤ 12
  · have ht0 : t = 0 := by
      rw [ht, sym13after_getD, List.getD_eq_default]
      · decide
      · omega
    have htake : s.take 12 = s := List.take_of_length_le hshort
    rw [ht0, htake, List.append_assoc]
    have hdot : charmap.getD 0 '.' = '.' := rfl
    rw [hdot]
    have hrep : List.replicate (12 - s.length) ('.' : Char) ++ ['.']
        = List.replicate (13 - s.length) '.' := by
      rw [← List.replicate_succ' (12 - s.length) '.']
      congr 1
      omega
    rw [hrep]
  · have hlen13 : s.length = 13 := by omega
    have hdrop : s.drop 12 = [s.getD 12 '.'] :=
      drop_of_length_eq_succ 12 s (by omega)
    have hmem12 : s.getD 12 '.' ∈ s := by
      have h0 : s.getD 12 '.' ∈ s.drop 12 := by rw [hdrop]; exact List.mem_singleton_self _
      exact List.mem_of_mem_drop h0
    have htval : t = char_to_symbol (s.getD 12 '.') := by
      rw [ht, sym13after_getD]
      have h1 : char_to_symbol (s.getD 12 '.') &&& 0x0f
          = char_to_symbol (s.getD 12 '.') % 16 := by
        simpa using
          Nat.and_pow_two_sub_one_eq_mod (char_to_symbol (s.getD 12 '.')) 4
      rw [h1]
      omega
    have hc13 : charmap.getD t '.' = s.getD 12 '.' := by
      rw [htval]
      exact charmap_getD_symbol _ (hval _ hmem12)
    have hsplit : s.take 12 ++ [s.getD 12 '.'] = s := by
      rw [← hdrop]
      exact List.take_append_drop 12 s
    rw [hc13, show 12 - s.length = 0 from by omega,
      show 13 - s.length = 0 from by omega]
    simp only [List.replicate_zero, List.append_nil]
    exact hsplit

theorem dropWhile_replicate_append (p : Char → Bool) (a : Char) (hp : p a = true) :
    ∀ (m : Nat) (l : List Char),
      (List.replicate m a ++ l).dropWhile p = l.dropWhile p := by
  intro m
  induction m with
  | zero => intro l; rfl
  | succ m ih =>
    intro l
    simp only [List.replicate_succ, List.cons_append, List.dropWhile_cons, hp,
      if_true]
    exact ih l

theorem dropWhile_ne_nil_of_exists (p : Char → Bool) :
    ∀ (l : List Char), (∃ c ∈ l, ¬ p c = true) → l.dropWhile p ≠ [] := by
  intro l
  induction l with
  | nil => rintro ⟨c, hc, _⟩; simp at hc
  | cons a l ih =>
    rintro ⟨c, hc, hpc⟩
    by_cases hpa : p a = true
    · simp only [List.dropWhile_cons, hpa, if_true]
      apply ih
      rcases List.mem_cons.mp hc with rfl | hmem
      · exact absurd hpa hpc
      · exact ⟨c, hmem, hpc⟩
    · simp [List.dropWhile_cons, hpa]

theorem trim_append_dots (s : List Char) (m : Nat)
    (h : ∃ c ∈ s, c ≠ '.') :
    trim_trailing_dots (s ++ List.replicate m '.') = trim_trailing_dots s := by
  have hdw : (s ++ List.replicate m '.').reverse.dropWhile (fun c => c = '.')
      = s.reverse.dropWhile (fun c => c = '.') := by
    rw [List.reverse_append, List.reverse_replicate]
    exact dropWhile_replicate_append _ '.' (by simp) m s.reverse
  have hne : s.reverse.dropWhile (fun c => c = '.') ≠ [] := by
    apply dropWhile_ne_nil_of_exists
    obtain ⟨c, hc, hne⟩ := h
    exact ⟨c, List.mem_reverse.mpr hc, by simpa using hne⟩
  unfold trim_trailing_dots
  rw [hdw]
  have hrne : (s.reverse.dropWhile (fun c => c = '.')).reverse ≠ [] := by
    intro h0
    exact hne (by simpa using congrArg List.reverse h0)
  simp only [List.isEmpty_iff, hrne, if_neg, if_false]

/-- C5 counterexample: the claim fails at the all-dot string `"."` — the code
decodes `string_to_name "."` (which is 0) to the full 13-dot string
`"............."`, not to `"."`. -/
theorem name_round_trip_dot_counterexample :
    ¬ (name_to_string (string_to_name ['.']) =
        if (['.'] : List Char).all (fun c => c = '.') then ['.']
        else trim_trailing_dots ['.']) := by
  decide

/-- C5 amended: for every string over the name alphabet of length at most 13
that contains at least one non-dot character — equivalently, is not all
dots — and whose 13th character (if present) is one of the 16 low symbols
`'.'`, `'1'..'5'`, `'a'..'j'` (only 4 bits are stored for position 12),
`name_to_string (string_to_name s)` equals `s` with its trailing dots
trimmed; an all-dot string (including the empty string) instead decodes to
the fixed 13-dot string. -/
theorem name_round_trip (s : List Char) (hval : ∀ c ∈ s, c ∈ charmap)
    (hlen : s.length ≤ 13) (h13 : char_to_symbol (s.getD 12 '.') < 16) :
    name_to_string (string_to_name s) =
      if s.all (fun c => c = '.') then List.replicate 13 '.'
      else trim_trailing_dots s := by
  by_cases hdots : s.all (fun c => c = '.')
  · rw [if_pos hdots]
    have h0 : string_to_name s = 0 := by
      apply string_to_name_loop_dots
      intro c hc
      have := List.all_eq_true.mp hdots c hc
      simpa using this
    rw [h0]
    decide
  · rw [if_neg hdots]
    have hex : ∃ c ∈ s, c ≠ '.' := by
      by_contra hno
      push_neg at hno
      exact hdots (List.all_eq_true.mpr (fun c hc => by simpa using hno c hc))
    unfold name_to_string
    rw [name_to_string_chars_of_valid s hval hlen h13]
    exact trim_append_dots s (13 - s.length) hex

/-- witness for C5 amended at `s = "eos.."`: the round trip trims the two
trailing dots. -/
theorem name_round_trip_witness :
    name_to_string (string_to_name ['e', 'o', 's', '.', '.']) =
      if (['e', 'o', 's', '.', '.'] : List Char).all (fun c => c = '.') then
        List.replicate 13 '.'
      else trim_trailing_dots ['e', 'o', 's', '.', '.'] :=
  name_round_trip ['e', 'o', 's', '.', '.'] (by decide) (by decide) (by decide)

/-!
## JSON events and writer tokens

`event_type` (abieos.hpp line 102) with its payloads, and the tokens emitted
through the rapidjson `Writer` on the decode side.
-/

inductive Event where
  | null
  | boolE (b : Bool)
  | str (s : String)
  | start_object
  | key (k : String)
  | end_object
  | start_array
  | end_array
deriving DecidableEq

inductive JToken where
  | null
  | boolT (b : Bool)
  | strT (s : String)
  | uintT (n : Nat)
  | intT (n : Int)
  | keyT (k : String)
  | start_object
  | end_object
  | start_array
  | end_array
deriving DecidableEq

/-- `push_raw` of a `w`-byte little-endian integer: the low `w` bytes of `v`. -/
def le_bytes : Nat → Nat → List Nat
  | 0, _ => []
  | w + 1, v => v % 256 :: le_bytes w (v / 256)

/-!
## Symbols and assets

`string_to_symbol_code` (abieos.hpp line 764), `string_to_asset` (line 843)
and `json_to_bin(asset*)` (line 894).
-/

/-- loop of `string_to_symbol_code` (abieos.hpp line 764): uppercase letters
are packed little-endian, 8 bits per position; scanning stops at the first
character outside `'A'..'Z'`. -/
def string_to_symbol_code_loop : List Char → Nat → Nat
  | c :: s, i =>
    if 'A'.toNat ≤ c.toNat ∧ c.toNat ≤ 'Z'.toNat then
      (c.toNat <<< (8 * i)) ||| string_to_symbol_code_loop s (i + 1)
    else 0
  | [], _ => 0

/-- `string_to_symbol_code` (abieos.hpp line 764): skips leading spaces, then
packs the letters. -/
def string_to_symbol_code (s : List Char) : Nat :=
  string_to_symbol_code_loop (s.dropWhile (fun c => c = ' ')) 0

/-- the whole-part digit loop of `string_to_asset` (abieos.hpp line 854):
`amount = amount * 10 + digit` on a `uint64` accumulator. -/
def parse_digits : List Char → Nat → Nat × List Char
  | c :: s, acc =>
    if '0'.toNat ≤ c.toNat ∧ c.toNat ≤ '9'.toNat then
      parse_digits s (acc * 10 + (c.toNat - '0'.toNat))
    else (acc, c :: s)
  | [], acc => (acc, [])

/-- the fractional digit loop of `string_to_asset` (abieos.hpp line 858):
also counts one `precision` per digit. -/
def parse_frac_digits : List Char → Nat → Nat → Nat × Nat × List Char
  | c :: s, acc, prec =>
    if '0'.toNat ≤ c.toNat ∧ c.toNat ≤ '9'.toNat then
      parse_frac_digits s (acc * 10 + (c.toNat - '0'.toNat)) (prec + 1)
    else (acc, prec, c :: s)
  | [], acc, prec => (acc, prec, [])

/-- `string_to_asset` (abieos.hpp line 843).  Returns
`(amount bit pattern, symbol value)`: the amount is a `uint64` accumulation
(negation is two's complement on 64 bits), the symbol packs the code above
the 8-bit precision; both live in 64 bits, made explicit with `% 2 ^ 64`
(the precision counter is a `uint8`, hence `% 256`). -/
def string_to_asset (s0 : List Char) : Nat × Nat :=
  let s1 := s0.dropWhile (fun c => c = ' ')
  let negative := match s1 with
    | '-' :: _ => true
    | _ => false
  let s2 := match s1 with
    | '-' :: rest => rest
    | _ => s1
  let ws := parse_digits s2 0
  let fs := match ws.2 with
    | '.' :: rest => parse_frac_digits rest ws.1 0
    | _ => (ws.1, 0, ws.2)
  let amount := if negative then (2 ^ 64 - fs.1 % 2 ^ 64) % 2 ^ 64
    else fs.1 % 2 ^ 64
  let code := string_to_symbol_code fs.2.2
  (amount, ((code <<< 8) ||| fs.2.1 % 256) % 2 ^ 64)

/-- `json_to_bin(asset*)` (abieos.hpp line 894): a string event is parsed by
`string_to_asset` and pushed as 8 little-endian bytes of the amount followed
by 8 little-endian bytes of the symbol; any other event throws. -/
def asset_json_to_bin (ev : Event) : Option (List Nat) :=
  match ev with
  | .str s =>
    let v := string_to_asset s.toList
    some (le_bytes 8 v.1 ++ le_bytes 8 v.2)
  | _ => none

/-!
## int128

`json_to_bin(int128*)` (abieos.hpp line 419).  The helpers
`decimal_to_binary`, `negate` and `is_negative` live in `abieos_numeric.hpp`,
which is not part of `src/`; they are modelled from the spec (see the doc
comments below).
-/

/-- Modelled from the spec: `decimal_to_binary<16>` of `abieos_numeric.hpp`
(a file not under `src/`) — "the big-decimal text↔128-bit conversion helper"
(spec §1), whose encode side parses a decimal digit string into a 128-bit
little-endian value, failing on a non-digit character ("invalid number") and
when the accumulated value overflows 16 bytes ("number is out of range").
The value is kept as a `Nat < 2 ^ 128`. -/
def decimal_to_binary16 (s : List Char) : Option Nat :=
  s.foldlM (fun acc c =>
    if '0'.toNat ≤ c.toNat ∧ c.toNat ≤ '9'.toNat then
      let v := acc * 10 + (c.toNat - '0'.toNat)
      if v < 2 ^ 128 then some v else none
    else none) 0

/-- Modelled from the spec: `negate` of `abieos_numeric.hpp` (not under
`src/`): two's-complement negation of a 128-bit value ("signed form uses
two's complement", spec §3). -/
def negate128 (v : Nat) : Nat := (2 ^ 128 - v % 2 ^ 128) % 2 ^ 128

/-- Modelled from the spec: `is_negative` of `abieos_numeric.hpp` (not under
`src/`): the sign bit (bit 127) of a 128-bit two's-complement value. -/
def is_negative128 (v : Nat) : Bool := 2 ^ 127 ≤ v % 2 ^ 128

/-- `json_to_bin(int128*)` (abieos.hpp line 419): strip a leading `'-'`,
parse the decimal magnitude, negate if negative, and throw
("number is out of range") when the sign of the result does not match the
requested sign; otherwise push 16 little-endian bytes. -/
def int128_json_to_bin (ev : Event) : Option (List Nat) :=
  match ev with
  | .str s0 =>
    let s1 := s0.toList
    let negative := match s1 with
      | '-' :: _ => true
      | _ => false
    let s2 := match s1 with
      | '-' :: rest => rest
      | _ => s1
    match decimal_to_binary16 s2 with
    | none => none
    | some value0 =>
      let value := if negative then negate128 value0 else value0
      if is_negative128 value ≠ negative then none
      else some (le_bytes 16 value)
  | _ => none

/-!
## The resolved type graph and the two serializer machines

`abi_type` (abieos.hpp line 1369) reduced to the kinds the serializers
dispatch on: a primitive (carrying its leaf serializer pair, as the `ser`
pointer does), an optional, an array, or a filled struct with its flattened
field list.
-/

inductive AbiType where
  | prim (j2b : Event → Option (List Nat))
      (b2j : List Nat → Option (List JToken × List Nat))
  | option (inner : AbiType)
  | array (elem : AbiType)
  | structT (fields : List (String × AbiType))

/-- `size_insertion` (abieos.hpp line 172). -/
structure SizeInsertion where
  position : Nat
  size : Nat
deriving DecidableEq

/-- `json_to_bin_stack_entry` (abieos.hpp line 186). -/
structure J2BFrame where
  type : AbiType
  position : Int
  size_insertion_index : Nat

/-- `json_to_bin_state` (abieos.hpp line 207).  The stack top
(`std::vector::back`) is the list head. -/
structure J2BState where
  bin : List Nat
  size_insertions : List SizeInsertion
  stack : List J2BFrame

/-- the `json_to_bin` serializer dispatch (abieos.hpp lines 1539-1624):
`json_to_bin(pseudo_optional*)`, `json_to_bin(pseudo_object*)`,
`json_to_bin(pseudo_array*)` and the primitive leaves.  `fuel` bounds the
nested re-dispatch that an optional or a field/element start performs (plain
C++ recursion); a key or end event never re-dispatches, and every concrete
run below carries enough fuel.  A C++ `vector` access at a negative index
(`fields[position]` before any key) is undefined behaviour and is modelled
as failure. -/
def json_to_bin_type (fuel : Nat) (t : AbiType) (st : J2BState) (ev : Event)
    (start : Bool) : Option J2BState :=
  match fuel with
  | 0 => none
  | fuel + 1 =>
    match t with
    | .prim j2b _ =>
      match j2b ev with
      | some bytes => some { st with bin := st.bin ++ bytes }
      | none => none
    | .option inner =>
      match ev with
      | .null => some { st with bin := st.bin ++ [0] }
      | _ => json_to_bin_type fuel inner { st with bin := st.bin ++ [1] } ev true
    | .structT fields =>
      if start then
        match ev with
        | .start_object => some { st with stack := ⟨t, -1, 0⟩ :: st.stack }
        | _ => none
      else
        match st.stack with
        | [] => none
        | frame :: rest =>
          match ev with
          | .end_object =>
            if frame.position + 1 = (fields.length : Int) then
              some { st with stack := rest }
            else none
          | .key k =>
            if frame.position + 1 ≥ (fields.length : Int) then none
            else if 0 ≤ frame.position + 1 then
              match fields.get? (frame.position + 1).toNat with
              | none => none
              | some field =>
                if k = field.1 then
                  some { st with stack := { frame with position := frame.position + 1 } :: rest }
                else none
            else none
          | _ =>
            if 0 ≤ frame.position then
              match fields.get? frame.position.toNat with
              | none => none
              | some field => json_to_bin_type fuel field.2 st ev true
            else none
    | .array elem =>
      if start then
        match ev with
        | .start_array =>
          let frame : J2BFrame := ⟨t, -1, st.size_insertions.length⟩
          let ins : SizeInsertion := ⟨st.bin.length, 0⟩
          some { st with stack := frame :: st.stack, size_insertions := st.size_insertions ++ [ins] }
        | _ => none
      else
        match st.stack with
        | [] => none
        | frame :: rest =>
          match ev with
          | .end_array =>
            let old := st.size_insertions.getD frame.size_insertion_index ⟨0, 0⟩
            let upd : SizeInsertion := ⟨old.position, (frame.position + 1).toNat⟩
            some { st with size_insertions := st.size_insertions.set frame.size_insertion_index upd, stack := rest }
          | _ =>
            json_to_bin_type fuel elem
              { st with stack := { frame with position := frame.position + 1 } :: rest }
              ev true

/-- `receive_event(json_to_bin_state&)` (abieos.hpp line 1488): an empty
stack refuses the event; the dispatch type is taken from the stack top; on
the first event of the document the stack is cleared; a stack deeper than
`max_stack_size` throws. -/
def j2b_receive_event (fuel : Nat) (st : J2BState) (ev : Event) (start : Bool) :
    Option J2BState :=
  match st.stack with
  | [] => none
  | frame :: _ =>
    let st1 := if start then { st with stack := [] } else st
    if st1.stack.length > max_stack_size then none
    else json_to_bin_type fuel frame.type st1 ev start

/-- the event loop of `json_to_bin` (abieos.hpp line 1501): the parser feeds
each event to `receive_event`, with `start = true` only for the first. -/
def j2b_run_events (fuel : Nat) : J2BState → List Event → Bool → Option J2BState
  | st, [], _ => some st
  | st, ev :: evs, start =>
    match j2b_receive_event fuel st ev start with
    | none => none
    | some st1 => j2b_run_events fuel st1 evs false

/-- the final splice of `json_to_bin` (abieos.hpp line 1529): the recorded
size insertions are interleaved into the buffer in offset order. -/
def splice_sizes : List Nat → Nat → List SizeInsertion → List Nat
  | bin, pos, [] => bin.drop pos
  | bin, pos, ins :: rest =>
    (bin.drop pos).take (ins.position - pos) ++ push_varuint32 ins.size
      ++ splice_sizes bin ins.position rest

/-- `json_to_bin(bin, type, json)` (abieos.hpp line 1501) driven by an
already-parsed event list: push the root frame, feed the events, splice. -/
def json_to_bin_run (fuel : Nat) (t : AbiType) (evs : List Event) :
    Option (List Nat) :=
  match j2b_run_events fuel ⟨[], [], [⟨t, -1, 0⟩]⟩ evs true with
  | none => none
  | some st => some (splice_sizes st.bin 0 st.size_insertions)

/-- `bin_to_json_stack_entry` (abieos.hpp line 192). -/
structure B2JFrame where
  type : AbiType
  position : Int
  array_size : Nat

/-- `bin_to_json_state` (abieos.hpp line 213): input buffer, writer output
(as a token list), stack with the top at the head. -/
structure B2JState where
  bin : List Nat
  out : List JToken
  stack : List B2JFrame

/-- the `bin_to_json` serializer dispatch (abieos.hpp lines 1649-1726):
`bin_to_json(pseudo_optional*)` reads the tag with `read_bin<uint8_t>` and
branches on it being *nonzero*; `bin_to_json(pseudo_object*)` and
`bin_to_json(pseudo_array*)` push frames and step through fields/elements;
primitives run their leaf decoder. -/
def bin_to_json_type (fuel : Nat) (t : AbiType) (st : B2JState) (start : Bool) :
    Option B2JState :=
  match fuel with
  | 0 => none
  | fuel + 1 =>
    match t with
    | .prim _ b2j =>
      match b2j st.bin with
      | some (toks, rest) => some { st with bin := rest, out := st.out ++ toks }
      | none => none
    | .option inner =>
      match st.bin with
      | [] => none
      | b :: rest =>
        if b ≠ 0 then bin_to_json_type fuel inner { st with bin := rest } true
        else some { st with bin := rest, out := st.out ++ [.null] }
    | .structT fields =>
      if start then
        some { st with stack := ⟨t, -1, 0⟩ :: st.stack, out := st.out ++ [.start_object] }
      else
        match st.stack with
        | [] => none
        | frame :: rest =>
          if frame.position + 1 < (fields.length : Int) then
            if 0 ≤ frame.position + 1 then
              match fields.get? (frame.position + 1).toNat with
              | none => none
              | some field =>
                let stack1 := { frame with position := frame.position + 1 } :: rest
                bin_to_json_type fuel field.2
                  { st with stack := stack1, out := st.out ++ [.keyT field.1] } true
            else none
          else
            some { st with stack := rest, out := st.out ++ [.end_object] }
    | .array elem =>
      if start then
        match read_varuint32 st.bin with
        | none => none
        | some (n, rest) =>
          let frame : B2JFrame := ⟨t, -1, n⟩
          some { st with bin := rest, stack := frame :: st.stack, out := st.out ++ [.start_array] }
      else
        match st.stack with
        | [] => none
        | frame :: rest =>
          if frame.position + 1 < (frame.array_size : Int) then
            bin_to_json_type fuel elem
              { st with stack := { frame with position := frame.position + 1 } :: rest }
              true
          else
            some { st with stack := rest, out := st.out ++ [.end_array] }

/-- the driver loop of `bin_to_json` (abieos.hpp line 1630): dispatch the
root type with `start = true`, then repeatedly dispatch the stack top until
the stack empties; a stack deeper than `max_stack_size` throws. -/
def bin_to_json_loop (fuel : Nat) (dispatchFuel : Nat) (st : B2JState) :
    Option B2JState :=
  match fuel with
  | 0 => none
  | fuel + 1 =>
    match st.stack with
    | [] => some st
    | frame :: _ =>
      match bin_to_json_type dispatchFuel frame.type st false with
      | none => none
      | some st1 =>
        if st1.stack.length > max_stack_size then none
        else bin_to_json_loop fuel dispatchFuel st1

/-- `bin_to_json(bin, type, dest)` (abieos.hpp line 1630): returns the
emitted tokens and the unconsumed bytes. -/
def bin_to_json_run (fuel : Nat) (t : AbiType) (bytes : List Nat) :
    Option (List JToken × List Nat) :=
  match bin_to_json_type fuel t { bin := bytes, out := [], stack := [] } true with
  | none => none
  | some st =>
    match bin_to_json_loop fuel fuel st with
    | none => none
    | some st1 => some (st1.out, st1.bin)

/-- the `uint8` leaf: the decode side is the arithmetic `bin_to_json`
instantiated at a 1-byte unsigned type (read one byte, emit a JSON number);
its encode side (a `json_to_number` parse) is not exercised by any claim in
this file and is left unmodelled (always failing). -/
def uint8_b2j (bs : List Nat) : Option (List JToken × List Nat) :=
  match bs with
  | [] => none
  | b :: rest => some ([.uintT b], rest)

def uint8_type : AbiType := .prim (fun _ => none) uint8_b2j

/-- the `asset` leaf type: the encode side is `asset_json_to_bin`; the
decode side (`asset_to_string`) is not exercised by any claim in this file
and is left unmodelled (always failing). -/
def asset_type : AbiType := .prim asset_json_to_bin (fun _ => none)

/-- C1: with a struct frame on top of the stack (within the recursion
limit), a `key k` event succeeds exactly when `k` equals the name of the
*next* field in declaration order — so an unknown or out-of-order key makes
`json_to_bin` fail — and an `end_object` event succeeds exactly when all
declared fields have been consumed (`position + 1 = fields.length`). -/
theorem struct_strict_field_order (fuel : Nat)
    (fields : List (String × AbiType)) (pos : Int) (sidx : Nat)
    (restStack : List J2BFrame) (st : J2BState) (k : String)
    (hstack : st.stack = ⟨.structT fields, pos, sidx⟩ :: restStack)
    (hdepth : st.stack.length ≤ max_stack_size) :
    ((j2b_receive_event (fuel + 1) st (.key k) false).isSome ↔
      (0 ≤ pos + 1 ∧ pos + 1 < (fields.length : Int) ∧
        (fields.get? (pos + 1).toNat).map Prod.fst = some k)) ∧
    ((j2b_receive_event (fuel + 1) st .end_object false).isSome ↔
      pos + 1 = (fields.length : Int)) := by
  obtain ⟨bin, ins, stack⟩ := st
  simp only at hstack
  subst hstack
  simp only [List.length_cons] at hdepth
  constructor
  · have hstep : j2b_receive_event (fuel + 1)
        ⟨bin, ins, ⟨.structT fields, pos, sidx⟩ :: restStack⟩ (.key k) false
        = if (⟨.structT fields, pos, sidx⟩ :: restStack).length > max_stack_size
          then none
          else if pos + 1 ≥ (fields.length : Int) then none
          else if 0 ≤ pos + 1 then
            match fields.get? (pos + 1).toNat with
            | none => none
            | some field =>
              if k = field.1 then
                some ⟨bin, ins, ⟨.structT fields, pos + 1, sidx⟩ :: restStack⟩
              else none
          else none := rfl
    rw [hstep, if_neg (by simp only [List.length_cons]; omega)]
    by_cases hover : pos + 1 ≥ (fields.length : Int)
    · rw [if_pos hover]
      simp only [Option.isSome_none, Bool.false_eq_true, false_iff]
      rintro ⟨h1, h2, h3⟩
      omega
    · rw [if_neg hover]
      by_cases hneg : 0 ≤ pos + 1
      · rw [if_pos hneg]
        cases hget : fields.get? (pos + 1).toNat with
        | none =>
          rw [List.get?_eq_none] at hget
          exfalso
          omega
        | some field =>
          by_cases hk : k = field.1
          · simp only [hk, if_true, Option.isSome_some, true_iff,
              Option.map_some', and_true, eq_self_iff_true]
            exact ⟨hneg, by omega⟩
          · simp only [hk, if_false, Option.isSome_none, Bool.false_eq_true,
              false_iff, Option.map_some']
            rintro ⟨h1, h2, h3⟩
            exact hk (by injection h3 with h; exact h.symm)
      · rw [if_neg hneg]
        simp only [Option.isSome_none, Bool.false_eq_true, false_iff]
        rintro ⟨h1, _, _⟩
        exact hneg h1
  · have hstep : j2b_receive_event (fuel + 1)
        ⟨bin, ins, ⟨.structT fields, pos, sidx⟩ :: restStack⟩ .end_object false
        = if (⟨.structT fields, pos, sidx⟩ :: restStack).length > max_stack_size
          then none
          else if pos + 1 = (fields.length : Int) then
            some ⟨bin, ins, restStack⟩
          else none := rfl
    rw [hstep, if_neg (by simp only [List.length_cons]; omega)]
    by_cases heq : pos + 1 = (fields.length : Int)
    · rw [if_pos heq]
      simpa using heq
    · rw [if_neg heq]
      simpa using heq

/-- witness for C1 at the one-field struct `{a : uint8}` with a fresh frame
(`position = -1`): the key `"a"` is accepted (it is the next field in
declaration order), and `end_object` is refused because the field has not
been consumed yet. -/
theorem struct_strict_field_order_witness :
    ((j2b_receive_event (2 + 1)
        ⟨[], [], [⟨.structT [("a", uint8_type)], -1, 0⟩]⟩ (.key "a")
        false).isSome ↔
      (0 ≤ (-1 : Int) + 1 ∧ (-1 : Int) + 1 < (([("a", uint8_type)].length : Nat) : Int) ∧
        (([("a", uint8_type)].get? ((-1 : Int) + 1).toNat).map Prod.fst = some "a"))) ∧
    ((j2b_receive_event (2 + 1)
        ⟨[], [], [⟨.structT [("a", uint8_type)], -1, 0⟩]⟩ .end_object
        false).isSome ↔
      (-1 : Int) + 1 = (([("a", uint8_type)].length : Nat) : Int)) :=
  struct_strict_field_order 2 [("a", uint8_type)] (-1) 0 []
    ⟨[], [], [⟨.structT [("a", uint8_type)], -1, 0⟩]⟩ "a" rfl
    (by norm_num [max_stack_size])

/-- C6: under type `asset`, the single JSON string event `"1.0000 EOS"`
encodes to exactly the 16 bytes
`10 27 00 00 00 00 00 00 04 45 4F 53 00 00 00 00`: the amount `10000` as a
little-endian `int64`, then precision byte `04`, then the code `"EOS"`
little-endian with zero padding. -/
theorem asset_one_eos_bytes :
    json_to_bin_run 4 asset_type [.str "1.0000 EOS"]
      = some [0x10, 0x27, 0, 0, 0, 0, 0, 0, 0x04, 0x45, 0x4F, 0x53, 0, 0, 0, 0] := by
  decide

/-- C2 counterexample: the claim says every optional tag byte other than 0
or 1 makes the decode fail, but `bin_to_json(pseudo_optional*)` reads the
tag with `read_bin<uint8_t>` and branches on *nonzero*: with tag byte `2`
the decode of an optional `uint8` succeeds (emitting the payload `7`). -/
theorem optional_tag_two_accepted :
    bin_to_json_run 3 (.option uint8_type) [2, 7] = some ([.uintT 7], []) := by
  decide

/-- C2 amended: the optional decoder reads one tag byte; tag `0` emits
`null`, and *every* nonzero tag byte — not only `1` — selects the present
branch, behaving exactly as tag `1` does (the decode only fails when the
buffer is empty or the inner decode fails). -/
theorem optional_tag_nonzero (fuel : Nat) (t : AbiType) (st : B2JState)
    (b : Nat) (rest : List Nat) (start : Bool)
    (hb : b ≠ 0) (hbin : st.bin = b :: rest) :
    bin_to_json_type (fuel + 1) (.option t) st start
      = bin_to_json_type (fuel + 1) (.option t) { st with bin := 1 :: rest }
          start ∧
    bin_to_json_type (fuel + 1) (.option t) { st with bin := 0 :: rest } start
      = some { st with bin := rest, out := st.out ++ [.null] } := by
  obtain ⟨bin, out, stack⟩ := st
  simp only at hbin
  subst hbin
  constructor
  · simp [bin_to_json_type, hb]
  · simp [bin_to_json_type]

/-- witness for C2 amended at tag byte `2` over an optional `uint8`. -/
theorem optional_tag_nonzero_witness :
    (bin_to_json_type (2 + 1) (.option uint8_type) ⟨[2, 7], [], []⟩ true
      = bin_to_json_type (2 + 1) (.option uint8_type) ⟨[1, 7], [], []⟩ true) ∧
    (bin_to_json_type (2 + 1) (.option uint8_type) ⟨[0, 7], [], []⟩ true
      = some ⟨[7], [JToken.null], []⟩) :=
  optional_tag_nonzero 2 uint8_type ⟨[2, 7], [], []⟩ 2 [7] true
    (by norm_num) rfl

/-- C8 counterexample: the claim says encoding
`"-170141183460469231731687303715884105728"` (the two's-complement minimum
`-2^127`) fails as out of range, but the code *accepts* it: `negate` maps
`2^127` to itself, so `is_negative` agrees with the requested sign and the
encoder emits the two's-complement bytes `00 × 15, 80`. -/
theorem int128_min_accepted :
    int128_json_to_bin (.str "-170141183460469231731687303715884105728")
      = some (List.replicate 15 0 ++ [128]) := by
  decide

/-- C8 amended: the negate-and-verify check accepts the two's-complement
minimum `-2^127`, emitting its 16 two's-complement bytes; what it rejects as
out of range are the positive `2^127` (which would read back as negative)
and magnitudes beyond it such as `-(2^127 + 1)`. -/
theorem int128_min_behavior :
    int128_json_to_bin (.str "-170141183460469231731687303715884105728")
      = some (List.replicate 15 0 ++ [128]) ∧
    int128_json_to_bin (.str "170141183460469231731687303715884105728")
      = none ∧
    int128_json_to_bin (.str "-170141183460469231731687303715884105729")
      = none := by
  refine ⟨?_, ?_, ?_⟩ <;> decide

/-!
## Binary → native decoding

`bin_to_native` (abieos.hpp lines 1086-1193).  The C++ drives a manual work
stack of `native_stack_entry` frames whose positions walk each aggregate's
parts in order; the traversal it performs is ordinary depth-first recursion,
which the embedding expresses directly (with a structural depth fuel so the
definitions compute).  The universe covers the shapes the `RawAbi` loader
uses: fixed-width unsigned integers, strings, `bytes`, vectors and pairs.
-/

inductive NativeT where
  | uint8
  | uint16
  | uint32
  | uint64
  | stringT
  | bytesT
  | vecT (elem : NativeT)
  | pairT (first second : NativeT)

inductive NativeV where
  | num (n : Nat)
  | strV (bytes : List Nat)
  | vecV (elems : List NativeV)
  | pairV (a b : NativeV)

/-- `read_bin` into a `w`-byte little-endian unsigned integer (the
arithmetic `bin_to_native`, abieos.hpp line 1100): fails past the end of the
input. -/
def read_le (w : Nat) (bs : List Nat) : Option (Nat × List Nat) :=
  if bs.length < w then none
  else some ((bs.take w).foldr (fun b acc => b % 256 + 256 * acc) 0, bs.drop w)

/-- `bin_to_native` dispatch over the native type universe.  The `pair` case
(abieos.hpp line 1158) decodes **both** components through
`native_serializer_for<First>`: line 1176 passes `&obj.second` to `First`'s
serializer, so `Second`'s decoder is never consulted.  The source has no
`bin_to_native` for `bytes` (the struct carries no `for_each_field` list and
its serializer is never instantiated — it is only reachable through the dead
`Second` position of the extensions pair), so `bytesT` is modelled as
failure.  `std::vector` decoding (line 1131) reads a `varuint32` count then
that many elements. -/
def bin_to_native_t : Nat → NativeT → List Nat → Option (NativeV × List Nat)
  | 0, _, _ => none
  | fuel + 1, t, bs =>
    match t with
    | .uint8 => (read_le 1 bs).map (fun r => (.num r.1, r.2))
    | .uint16 => (read_le 2 bs).map (fun r => (.num r.1, r.2))
    | .uint32 => (read_le 4 bs).map (fun r => (.num r.1, r.2))
    | .uint64 => (read_le 8 bs).map (fun r => (.num r.1, r.2))
    | .stringT => (bin_to_native_string bs).map (fun r => (.strV r.1, r.2))
    | .bytesT => none
    | .vecT elem =>
      match read_varuint32 bs with
      | none => none
      | some (n, rest) =>
        match (List.range n).foldlM
            (fun acc _ =>
              match bin_to_native_t fuel elem acc.2 with
              | none => none
              | some (v, rest1) => some (acc.1 ++ [v], rest1))
            (([] : List NativeV), rest) with
        | none => none
        | some (vs, rest1) => some (.vecV vs, rest1)
    | .pairT first _ =>
      match bin_to_native_t fuel first bs with
      | none => none
      | some (a, bs1) =>
        match bin_to_native_t fuel first bs1 with
        | none => none
        | some (b, bs2) => some (.pairV a b, bs2)

/-- C9: binary→native decoding of a `std::pair<First, Second>` decodes both
components with `First`'s serializer — the result does not depend on
`Second` at all — and concretely, for the ABI-extensions shape
`pair<uint16_t, bytes>`, the bytes after the first component are consumed as
a second little-endian `uint16` (here `[2, 0] ↦ 2`, leaving `[9]`), not as a
length-prefixed `bytes` blob. -/
theorem pair_decoded_with_first_serializer :
    (∀ (fuel : Nat) (first s1 s2 : NativeT) (bs : List Nat),
      bin_to_native_t (fuel + 1) (.pairT first s1) bs
        = bin_to_native_t (fuel + 1) (.pairT first s2) bs) ∧
    bin_to_native_t 2 (.pairT .uint16 .bytesT) [1, 0, 2, 0, 9]
      = some (.pairV (.num 1) (.num 2), [9]) :=
  ⟨fun _ _ _ _ _ => rfl, rfl⟩

/-!
## ABI type maps and alias resolution

`get_type` (abieos.hpp line 1392) and the alias-resolution pass of
`create_contract` (line 1473).  `std::map<std::string, abi_type>` is
modelled as an association list kept sorted by key, which fixes the
iteration order exactly as `std::map` does.
-/

/-- the fields of `abi_type` (abieos.hpp line 1369) that alias resolution
reads and writes: `alias_of_name` (empty for non-aliases), the cached
`alias_of` pointer (modelled by the terminal type's name — map keys are
unique), and the synthetic optional/array links. -/
structure AbiEntry where
  alias_of_name : String
  alias_of : Option String
  optional_of : Option String
  array_of : Option String
deriving DecidableEq

/-- `std::map::find`. -/
def map_find : List (String × AbiEntry) → String → Option AbiEntry
  | [], _ => none
  | (k, v) :: rest, nm => if nm = k then some v else map_find rest nm

/-- assignment through a `std::map` iterator (the value at an existing key
is replaced in place). -/
def map_set : List (String × AbiEntry) → String → AbiEntry → List (String × AbiEntry)
  | [], _, _ => []
  | (k, v) :: rest, nm, e =>
    if nm = k then (k, e) :: rest else (k, v) :: map_set rest nm e

/-- lexicographic character-code comparison — `std::string::operator<`
(the map keys here are ASCII, so byte order and code-point order agree). -/
def chars_lt : List Char → List Char → Bool
  | [], [] => false
  | [], _ :: _ => true
  | _ :: _, [] => false
  | a :: as, b :: bs =>
    if a.toNat < b.toNat then true
    else if a.toNat = b.toNat then chars_lt as bs
    else false

def string_lt (a b : String) : Bool := chars_lt a.toList b.toList

/-- `std::map::insert` into the sorted list (no overwrite of an existing
key, like `insert`; `abi_types[name] = type` in `get_type` only ever
inserts a fresh key). -/
def map_insert : List (String × AbiEntry) → String → AbiEntry → List (String × AbiEntry)
  | [], nm, e => [(nm, e)]
  | (k, v) :: rest, nm, e =>
    if string_lt nm k then (nm, e) :: (k, v) :: rest
    else if nm = k then (k, v) :: rest
    else (k, v) :: map_insert rest nm e

/-- `get_type` (abieos.hpp line 1392), with the remaining depth budget
`32 - depth` as the (structural) argument: the entry check `depth >= 32`
is exactly `gas = 0`, and each recursive call passes `depth + 1`, i.e.
`gas - 1`.  Returns the name of the resolved (non-alias) type together with
the updated map: chasing an alias chain caches `alias_of` on every entry it
passes through; resolving `T?` / `T[]` inserts the synthetic entry (and
rejects nested optional/array).  Throwing is `.error`. -/
def get_type_go : Nat → List (String × AbiEntry) → String →
    Except String (String × List (String × AbiEntry))
  | 0, _, _ => .error ("abi recursion limit reached")
  | gas + 1, abi_types, name =>
    match map_find abi_types name with
    | none =>
      if name.endsWith ("?") then
        match get_type_go gas abi_types (name.dropRight 1) with
        | .error e => .error e
        | .ok (inner, m1) =>
          let innerEntry := (map_find m1 inner).getD ⟨"", none, none, none⟩
          if innerEntry.optional_of.isSome ∨ innerEntry.array_of.isSome then
            .error ("optional and array don't support nesting")
          else
            .ok (name, map_insert m1 name ⟨"", none, some inner, none⟩)
      else if name.endsWith ("[]") then
        match get_type_go gas abi_types (name.dropRight 2) with
        | .error e => .error e
        | .ok (inner, m1) =>
          let innerEntry := (map_find m1 inner).getD ⟨"", none, none, none⟩
          if innerEntry.array_of.isSome ∨ innerEntry.optional_of.isSome then
            .error ("optional and array don't support nesting")
          else
            .ok (name, map_insert m1 name ⟨"", none, none, some inner⟩)
      else .error ("unknown type " ++ name)
    | some entry =>
      match entry.alias_of with
      | some target => .ok (target, abi_types)
      | none =>
        if entry.alias_of_name = "" then .ok (name, abi_types)
        else
          match get_type_go gas abi_types entry.alias_of_name with
          | .error e => .error e
          | .ok (target, m1) =>
            .ok (target, map_set m1 name { entry with alias_of := some target })

/-- `get_type(abi_types, name, depth)` (abieos.hpp line 1392). -/
def get_type (abi_types : List (String × AbiEntry)) (name : String)
    (depth : Nat) : Except String (String × List (String × AbiEntry)) :=
  get_type_go (32 - depth) abi_types name

/-- the built-in leaf types registered by `for_each_abi_type`
(abieos.hpp line 1310). -/
def built_in_type_names : List String :=
  ["bool", "int8", "uint8", "int16", "uint16", "int32", "uint32", "int64",
   "uint64", "int128", "uint128", "varuint32", "varint32", "float32",
   "float64", "float128", "time_point", "time_point_sec",
   "block_timestamp_type", "name", "bytes", "string", "checksum160",
   "checksum256", "checksum512", "public_key", "private_key", "signature",
   "symbol", "symbol_code", "asset"]

/-- the portion of `create_contract` (abieos.hpp line 1438) that a
typedef-only ABI exercises (an `abi_def` whose `structs`, `actions`,
`tables`, clauses, messages and extensions are empty — the struct, action
and struct-fill loops are then no-ops): register the built-in types and
`extended_asset`, insert one entry per `type_def` (an empty `new_type_name`
or a redefinition throws), then walk the map in `std::map` (sorted key)
order, resolving every entry with a nonempty `alias_of_name` through
`get_type` at depth 0 and caching the result in its `alias_of`.  For such
ABIs `get_type` never inserts new map entries, so folding over the
initially-present sorted keys is exactly the `std::map` iteration. -/
def create_contract_aliases (typedefs : List (String × String)) :
    Except String (List (String × AbiEntry)) := do
  let m0 := (built_in_type_names ++ ["extended_asset"]).foldl
    (fun m nm => map_insert m nm ⟨"", none, none, none⟩) []
  let m1 ← typedefs.foldlM (fun m td => do
    if td.1 = "" then throw ("abi has a type with a missing name")
    else if (map_find m td.1).isSome then
      throw ("abi redefines type " ++ td.1)
    else pure (map_insert m td.1 ⟨td.2, none, none, none⟩)) m0
  (m1.map Prod.fst).foldlM (fun m key =>
    match map_find m key with
    | none => pure m
    | some entry =>
      if entry.alias_of_name = "" then pure m
      else
        match get_type m entry.alias_of_name 0 with
        | .error e => throw e
        | .ok (target, m2) =>
          match map_find m2 key with
          | none => pure m2
          | some entry2 =>
            pure (map_set m2 key { entry2 with alias_of := some target })) m1

/-- true iff the load succeeded. -/
def load_ok (r : Except String (List (String × AbiEntry))) : Bool :=
  match r with
  | .ok _ => true
  | .error _ => false

/-- a 33-alias chain `t33 → t32 → … → t01 → bool`, whose names sort so that
`std::map` iteration reaches the chain *tail* (`t01`) first. -/
def chain33_tail_first : List (String × String) :=
  [("t01", "bool"), ("t02", "t01"), ("t03", "t02"), ("t04", "t03"),
   ("t05", "t04"), ("t06", "t05"), ("t07", "t06"), ("t08", "t07"),
   ("t09", "t08"), ("t10", "t09"), ("t11", "t10"), ("t12", "t11"),
   ("t13", "t12"), ("t14", "t13"), ("t15", "t14"), ("t16", "t15"),
   ("t17", "t16"), ("t18", "t17"), ("t19", "t18"), ("t20", "t19"),
   ("t21", "t20"), ("t22", "t21"), ("t23", "t22"), ("t24", "t23"),
   ("t25", "t24"), ("t26", "t25"), ("t27", "t26"), ("t28", "t27"),
   ("t29", "t28"), ("t30", "t29"), ("t31", "t30"), ("t32", "t31"),
   ("t33", "t32")]

/-- a 33-alias chain `t01 → t02 → … → t33 → bool`, whose names sort so that
`std::map` iteration reaches the chain *head* (`t01`) first. -/
def chain33_head_first : List (String × String) :=
  [("t01", "t02"), ("t02", "t03"), ("t03", "t04"), ("t04", "t05"),
   ("t05", "t06"), ("t06", "t07"), ("t07", "t08"), ("t08", "t09"),
   ("t09", "t10"), ("t10", "t11"), ("t11", "t12"), ("t12", "t13"),
   ("t13", "t14"), ("t14", "t15"), ("t15", "t16"), ("t16", "t17"),
   ("t17", "t18"), ("t18", "t19"), ("t19", "t20"), ("t20", "t21"),
   ("t21", "t22"), ("t22", "t23"), ("t23", "t24"), ("t24", "t25"),
   ("t25", "t26"), ("t26", "t27"), ("t27", "t28"), ("t28", "t29"),
   ("t29", "t30"), ("t30", "t31"), ("t31", "t32"), ("t32", "t33"),
   ("t33", "bool")]

/-- the same head-first layout with only 32 aliases (`t32 → bool`). -/
def chain32_head_first : List (String × String) :=
  [("t01", "t02"), ("t02", "t03"), ("t03", "t04"), ("t04", "t05"),
   ("t05", "t06"), ("t06", "t07"), ("t07", "t08"), ("t08", "t09"),
   ("t09", "t10"), ("t10", "t11"), ("t11", "t12"), ("t12", "t13"),
   ("t13", "t14"), ("t14", "t15"), ("t15", "t16"), ("t16", "t17"),
   ("t17", "t18"), ("t18", "t19"), ("t19", "t20"), ("t20", "t21"),
   ("t21", "t22"), ("t22", "t23"), ("t23", "t24"), ("t24", "t25"),
   ("t25", "t26"), ("t26", "t27"), ("t27", "t28"), ("t28", "t29"),
   ("t29", "t30"), ("t30", "t31"), ("t31", "t32"), ("t32", "bool")]

set_option maxRecDepth 8192 in
/-- C7 counterexample: the claim says an ABI with a 33-alias chain fails for
*every* such schema regardless of resolution order, but with names laid out
so that `std::map` order visits the chain tail first, the `alias_of` cache
keeps every `get_type` chase shallow and the load *succeeds*. -/
theorem alias_chain33_tail_first_loads :
    load_ok (create_contract_aliases chain33_tail_first) = true := rfl

set_option maxRecDepth 8192 in
/-- C7 amended: `get_type`'s 32-depth limit makes a 33-alias chain fail only
when a full-depth chase actually happens.  With names sorted so that
iteration reaches the chain head first, the load fails with
"abi recursion limit reached" (and the 32-alias chain in the same layout
still loads); with names sorted tail-first, the very same 33-chain loads
successfully — the failure depends on the order in which the aliases are
resolved. -/
theorem alias_chain33_order_dependent :
    create_contract_aliases chain33_head_first
      = .error ("abi recursion limit reached") ∧
    load_ok (create_contract_aliases chain32_head_first) = true ∧
    load_ok (create_contract_aliases chain33_tail_first) = true :=
  ⟨rfl, rfl, rfl⟩

end Abieos
